import Mathlib

/- Verification development for the owi libc shim (src/libc/src/owi.c).
   The source file is a declaration-only shim: ten C declarations carrying
   wasm import attributes (import module, import name, weak binding).  We
   embed that declaration table directly.  The bodies of the imported
   primitives live in the host symbolic-execution engine, outside this
   repository, so their semantics (tracked allocator, symbolic value
   source, constraint gate) are modelled from the specification. -/

/-- C parameter/return types appearing in owi.c. -/
inductive CType where
  | ptr
  | uintTy
  | charTy
  | intTy
  | longlongTy
  | floatTy
  | doubleTy
  | voidTy
deriving DecidableEq

/-- One C declaration of owi.c: its C symbol name, its wasm import module
and import name, its parameter and return types, and whether it carries the
weak-binding attribute. -/
structure CDecl where
  cname : String
  modName : String
  impName : String
  params : List CType
  ret : CType
  weak : Bool
deriving DecidableEq

/-- Lines 3-4 of owi.c: `void * owi_malloc(void *, unsigned int)` imported
from module "summaries" under name "alloc". -/
def owi_malloc_decl : CDecl :=
  ⟨"owi_malloc", "summaries", "alloc", [CType.ptr, CType.uintTy], CType.ptr, false⟩

/-- Lines 5-6 of owi.c: `void owi_free(void *)` imported from module
"summaries" under name "dealloc". -/
def owi_free_decl : CDecl :=
  ⟨"owi_free", "summaries", "dealloc", [CType.ptr], CType.voidTy, false⟩

/-- Lines 8-9 of owi.c: `char owi_i8(void)` imported from module "symbolic"
under name "i8_symbol". -/
def owi_i8_decl : CDecl :=
  ⟨"owi_i8", "symbolic", "i8_symbol", [], CType.charTy, false⟩

/-- Lines 10-11 of owi.c: `int owi_i32(void)` imported from module
"symbolic" under name "i32_symbol". -/
def owi_i32_decl : CDecl :=
  ⟨"owi_i32", "symbolic", "i32_symbol", [], CType.intTy, false⟩

/-- Lines 12-13 of owi.c: `long long owi_i64(void)` imported from module
"symbolic" under name "i64_symbol". -/
def owi_i64_decl : CDecl :=
  ⟨"owi_i64", "symbolic", "i64_symbol", [], CType.longlongTy, false⟩

/-- Lines 14-15 of owi.c: `float owi_f32(void)` imported from module
"symbolic" under name "f32_symbol". -/
def owi_f32_decl : CDecl :=
  ⟨"owi_f32", "symbolic", "f32_symbol", [], CType.floatTy, false⟩

/-- Lines 16-17 of owi.c: `double owi_f64(void)` imported from module
"symbolic" under name "f64_symbol". -/
def owi_f64_decl : CDecl :=
  ⟨"owi_f64", "symbolic", "f64_symbol", [], CType.doubleTy, false⟩

/-- Lines 19-20 of owi.c: `void owi_assume(int)` imported from module
"symbolic" under name "assume". -/
def owi_assume_decl : CDecl :=
  ⟨"owi_assume", "symbolic", "assume", [CType.intTy], CType.voidTy, false⟩

/-- Lines 21-22 of owi.c: `void owi_assert(int)` imported from module
"symbolic" under name "assert". -/
def owi_assert_decl : CDecl :=
  ⟨"owi_assert", "symbolic", "assert", [CType.intTy], CType.voidTy, false⟩

/-- Lines 24-25 of owi.c: `void assume(int)`, carrying the `weak`
attribute, imported from module "symbolic" under name "assume". -/
def assume_decl : CDecl :=
  ⟨"assume", "symbolic", "assume", [CType.intTy], CType.voidTy, true⟩

/-- The full declaration table of owi.c, in source order. -/
def owiDecls : List CDecl :=
  [owi_malloc_decl, owi_free_decl, owi_i8_decl, owi_i32_decl, owi_i64_decl,
   owi_f32_decl, owi_f64_decl, owi_assume_decl, owi_assert_decl, assume_decl]

/- ===== Tracked Allocator (host side, modelled from the spec) ===== -/

/-- Modelled from the spec: a Block of the Tracked Allocator, the host-side
state behind `owi_malloc`/`owi_free`, whose body is not in this repository.
Attributes: opaque handle, requested size in bytes, liveness flag. -/
structure Block where
  handle : Nat
  bsize : Nat
  live : Bool
deriving DecidableEq

/-- Modelled from the spec: the Tracked Allocator state, a per-path set of
Blocks together with a fresh-handle source. -/
structure AllocState where
  next : Nat
  blocks : List Block
deriving DecidableEq

/-- The empty allocator state. -/
def allocInit : AllocState := ⟨0, []⟩

/-- Handles of the currently-live Blocks. -/
def liveHandles (s : AllocState) : List Nat :=
  (s.blocks.filter (fun b => b.live)).map (fun b => b.handle)

/-- Modelled from the spec: the host body of `allocate` (the import behind
`owi_malloc`) registers a new Block and returns a handle distinct from
every other currently-live handle, fresh even if storage is reused. -/
def allocate (s : AllocState) (sz : Nat) : Nat × AllocState :=
  (s.next, ⟨s.next + 1, Block.mk s.next sz true :: s.blocks⟩)

/-- Outcome reported by `deallocate` to the host. -/
inductive FreeOutcome where
  | ok
  | invalidFree
deriving DecidableEq

/-- Clear the liveness flag of the Block carrying handle `h`. -/
def markFreed (blocks : List Block) (h : Nat) : List Block :=
  blocks.map (fun b => if b.handle = h then Block.mk b.handle b.bsize false else b)

/-- Modelled from the spec: the host body of `deallocate` (the import
behind `owi_free`) marks a live Block as not-live; called on a handle that
is not currently live it reports a double-free/invalid-free violation
instead of silently ignoring the call. -/
def deallocate (s : AllocState) (h : Nat) : FreeOutcome × AllocState :=
  if h ∈ liveHandles s then
    (FreeOutcome.ok, ⟨s.next, markFreed s.blocks h⟩)
  else
    (FreeOutcome.invalidFree, s)

/-- One allocator call. -/
inductive AllocOp where
  | alloc (sz : Nat)
  | dealloc (h : Nat)
deriving DecidableEq

/-- State after one allocator call. -/
def stepOp (s : AllocState) : AllocOp → AllocState
  | AllocOp.alloc sz => (allocate s sz).2
  | AllocOp.dealloc h => (deallocate s h).2

/-- State after a sequence of allocator calls. -/
def runOps (s : AllocState) : List AllocOp → AllocState
  | [] => s
  | op :: ops => runOps (stepOp s op) ops

/-- Whether handle `h` belongs to a freed (allocated, then deallocated)
Block of `s`. -/
def freedHandle (s : AllocState) (h : Nat) : Bool :=
  s.blocks.any (fun b => b.handle == h && !b.live)

/-- Allocator invariant: every Block handle is below the fresh-handle
source, and no two Blocks share a handle. -/
def AllocInv (s : AllocState) : Prop :=
  (∀ b ∈ s.blocks, b.handle < s.next) ∧ (s.blocks.map (fun b => b.handle)).Nodup

lemma allocInv_init : AllocInv allocInit := by
  constructor
  · intro b hb
    simp [allocInit] at hb
  · simp [allocInit]

lemma markFreed_handles (blocks : List Block) (h : Nat) :
    (markFreed blocks h).map (fun b => b.handle) = blocks.map (fun b => b.handle) := by
  unfold markFreed
  rw [List.map_map]
  apply List.map_congr_left
  intro b _
  by_cases hb : b.handle = h <;> simp [hb]

lemma mem_liveHandles (s : AllocState) (h : Nat) :
    h ∈ liveHandles s ↔ ∃ b, b ∈ s.blocks ∧ b.live = true ∧ b.handle = h := by
  simp [liveHandles, List.mem_map, List.mem_filter]
  constructor
  · rintro ⟨b, ⟨hb, hl⟩, hh⟩
    exact ⟨b, hb, hl, hh⟩
  · rintro ⟨b, hb, hl, hh⟩
    exact ⟨b, ⟨hb, hl⟩, hh⟩

lemma freedHandle_iff (s : AllocState) (h : Nat) :
    freedHandle s h = true ↔ ∃ b, b ∈ s.blocks ∧ b.handle = h ∧ b.live = false := by
  simp [freedHandle, List.any_eq_true, Bool.and_eq_true, Bool.not_eq_true']

lemma allocInv_step (s : AllocState) (op : AllocOp) (hs : AllocInv s) :
    AllocInv (stepOp s op) := by
  obtain ⟨hbound, hnodup⟩ := hs
  cases op with
  | alloc sz =>
      constructor
      · intro b hb
        simp only [stepOp, allocate, List.mem_cons] at hb
        simp only [stepOp, allocate]
        rcases hb with hb | hb
        · simp [hb]
        · exact Nat.lt_succ_of_lt (hbound b hb)
      · simp [stepOp, allocate, List.nodup_cons]
        refine ⟨?_, hnodup⟩
        intro b hb hh
        exact absurd (hh ▸ hbound b hb) (lt_irrefl _)
  | dealloc h =>
      simp only [stepOp, deallocate]
      by_cases hl : h ∈ liveHandles s
      · simp only [hl, if_pos]
        constructor
        · intro b hb
          have hmem : b.handle ∈ (markFreed s.blocks h).map (fun b => b.handle) :=
            List.mem_map_of_mem _ hb
          rw [markFreed_handles] at hmem
          rcases List.mem_map.mp hmem with ⟨b0, hb0, hh0⟩
          exact hh0 ▸ hbound b0 hb0
        · simpa [markFreed_handles] using hnodup
      · simpa [hl] using ⟨hbound, hnodup⟩

lemma allocInv_run (s : AllocState) (ops : List AllocOp) (hs : AllocInv s) :
    AllocInv (runOps s ops) := by
  induction ops generalizing s with
  | nil => exact hs
  | cons op ops ih => exact ih (stepOp s op) (allocInv_step s op hs)

lemma liveHandles_nodup (s : AllocState) (hs : AllocInv s) :
    (liveHandles s).Nodup := by
  have hsub : List.Sublist ((s.blocks.filter (fun b => b.live)).map (fun b => b.handle))
      (s.blocks.map (fun b => b.handle)) :=
    List.Sublist.map (fun b => b.handle) (List.filter_sublist s.blocks)
  exact List.Nodup.sublist hsub hs.2

lemma next_not_live (s : AllocState) (hs : AllocInv s) :
    s.next ∉ liveHandles s := by
  intro hmem
  rcases (mem_liveHandles s s.next).mp hmem with ⟨b, hb, _, hh⟩
  exact absurd (hh ▸ hs.1 b hb) (lt_irrefl _)

/-- Claim C1: starting from the empty allocator state, after every sequence
of allocate/deallocate calls the live handles are pairwise distinct, and
the handle a further `allocate` call would return is distinct from every
currently-live handle. -/
theorem owi_malloc_unique_handles (ops : List AllocOp) (sz : Nat) :
    (liveHandles (runOps allocInit ops)).Nodup ∧
    (allocate (runOps allocInit ops) sz).1 ∉ liveHandles (runOps allocInit ops) := by
  have hInv := allocInv_run allocInit ops allocInv_init
  exact ⟨liveHandles_nodup _ hInv, next_not_live _ hInv⟩

lemma deallocate_fst_of_not_live (s : AllocState) (h : Nat)
    (hnl : h ∉ liveHandles s) : (deallocate s h).1 = FreeOutcome.invalidFree := by
  simp [deallocate, hnl]

lemma not_live_after_deallocate (s : AllocState) (h : Nat) :
    h ∉ liveHandles (deallocate s h).2 := by
  by_cases hl : h ∈ liveHandles s
  · simp only [deallocate, hl, if_pos]
    intro hmem
    rcases (mem_liveHandles _ h).mp hmem with ⟨bm, hbm, hlive, hh⟩
    rcases List.mem_map.mp hbm with ⟨b, _, hfb⟩
    by_cases hbh : b.handle = h
    · rw [← hfb] at hlive
      simp [hbh] at hlive
    · rw [← hfb] at hh
      simp [hbh] at hh
  · simp [deallocate, hl]

/-- Claim C2: deallocating a handle that is not currently live reports the
invalid-free outcome rather than being silently ignored; and whenever
`deallocate` is called twice in a row on the same handle, the second call
reports invalid-free. -/
theorem owi_free_invalid_free (s : AllocState) (h : Nat) :
    (h ∉ liveHandles s → (deallocate s h).1 = FreeOutcome.invalidFree) ∧
    (deallocate (deallocate s h).2 h).1 = FreeOutcome.invalidFree :=
  ⟨fun hnl => deallocate_fst_of_not_live s h hnl,
   deallocate_fst_of_not_live (deallocate s h).2 h (not_live_after_deallocate s h)⟩

/-- Concrete instance of `owi_free_invalid_free`: freeing an unallocated
handle from the empty state reports invalid-free, and the second of two
consecutive frees of the handle returned by an allocation reports
invalid-free. -/
theorem owi_free_invalid_free_spot :
    ((0 ∉ liveHandles allocInit) ∧
      (deallocate allocInit 0).1 = FreeOutcome.invalidFree) ∧
    (deallocate (deallocate (allocate allocInit 8).2 0).2 0).1 = FreeOutcome.invalidFree :=
  ⟨⟨by decide, (owi_free_invalid_free allocInit 0).1 (by decide)⟩,
   (owi_free_invalid_free (allocate allocInit 8).2 0).2⟩

lemma freedHandle_step (s : AllocState) (op : AllocOp) (h : Nat)
    (hf : freedHandle s h = true) : freedHandle (stepOp s op) h = true := by
  rcases (freedHandle_iff s h).mp hf with ⟨b, hb, hh, hl⟩
  cases op with
  | alloc sz =>
      apply (freedHandle_iff _ h).mpr
      refine ⟨b, ?_, hh, hl⟩
      simp only [stepOp, allocate]
      exact List.mem_cons_of_mem _ hb
  | dealloc h2 =>
      simp only [stepOp, deallocate]
      by_cases hl2 : h2 ∈ liveHandles s
      · simp only [hl2, if_pos]
        apply (freedHandle_iff _ h).mpr
        refine ⟨if b.handle = h2 then Block.mk b.handle b.bsize false else b, ?_, ?_, ?_⟩
        · simp only [markFreed]
          exact List.mem_map_of_mem _ hb
        · by_cases hbh : b.handle = h2
          · rw [if_pos hbh]
            exact hh
          · rw [if_neg hbh]
            exact hh
        · by_cases hbh : b.handle = h2 <;> simp [hbh, hl]
      · simp only [hl2, if_neg, not_false_iff]
        exact hf

lemma freedHandle_run (s : AllocState) (ops : List AllocOp) (h : Nat)
    (hf : freedHandle s h = true) : freedHandle (runOps s ops) h = true := by
  induction ops generalizing s with
  | nil => exact hf
  | cons op ops ih => exact ih (stepOp s op) (freedHandle_step s op h hf)

lemma freed_not_live (s : AllocState) (h : Nat) (hs : AllocInv s)
    (hf : freedHandle s h = true) : h ∉ liveHandles s := by
  rcases (freedHandle_iff s h).mp hf with ⟨b, hb, hh, hl⟩
  intro hmem
  rcases (mem_liveHandles s h).mp hmem with ⟨b2, hb2, hl2, hh2⟩
  have heq : b = b2 := List.inj_on_of_nodup_map hs.2 hb hb2 (by rw [hh, hh2])
  rw [heq, hl2] at hl
  exact Bool.noConfusion hl

lemma freed_lt_next (s : AllocState) (hs : AllocInv s) (h : Nat)
    (hf : freedHandle s h = true) : h < s.next := by
  rcases (freedHandle_iff s h).mp hf with ⟨b, hb, hh, _⟩
  exact hh ▸ hs.1 b hb

/-- Claim C5: the freed state is terminal.  If a handle has been freed in a
run from the empty allocator state, then along every continuation it stays
freed and never appears among the live handles again, and a further
`allocate` call returns a handle distinct from it even though the
underlying Block set is reused. -/
theorem owi_free_terminal (ops1 : List AllocOp) (h : Nat)
    (hf : freedHandle (runOps allocInit ops1) h = true)
    (ops2 : List AllocOp) (sz : Nat) :
    freedHandle (runOps (runOps allocInit ops1) ops2) h = true ∧
    h ∉ liveHandles (runOps (runOps allocInit ops1) ops2) ∧
    (allocate (runOps (runOps allocInit ops1) ops2) sz).1 ≠ h := by
  have hInv1 := allocInv_run allocInit ops1 allocInv_init
  have hInv2 := allocInv_run _ ops2 hInv1
  have hf2 := freedHandle_run _ ops2 h hf
  refine ⟨hf2, freed_not_live _ h hInv2 hf2, ?_⟩
  have hlt := freed_lt_next _ hInv2 h hf2
  intro heq
  exact absurd (heq ▸ hlt) (lt_irrefl _)

/-- Concrete instance of `owi_free_terminal`: after allocating handle 0 and
freeing it, a later allocation leaves 0 freed and not live, and returns a
different handle. -/
theorem owi_free_terminal_spot :
    freedHandle (runOps allocInit [AllocOp.alloc 8, AllocOp.dealloc 0]) 0 = true ∧
    (freedHandle (runOps (runOps allocInit [AllocOp.alloc 8, AllocOp.dealloc 0])
        [AllocOp.alloc 4]) 0 = true ∧
      0 ∉ liveHandles (runOps (runOps allocInit [AllocOp.alloc 8, AllocOp.dealloc 0])
        [AllocOp.alloc 4]) ∧
      (allocate (runOps (runOps allocInit [AllocOp.alloc 8, AllocOp.dealloc 0])
        [AllocOp.alloc 4]) 4).1 ≠ 0) :=
  ⟨by decide,
   owi_free_terminal [AllocOp.alloc 8, AllocOp.dealloc 0] 0 (by decide) [AllocOp.alloc 4] 4⟩

/- ===== Symbolic Value Source (host side, modelled from the spec) ===== -/

/-- Primitive types served by the five symbol sources of owi.c. -/
inductive SymTy where
  | i8
  | i32
  | i64
  | f32
  | f64
deriving DecidableEq

/-- Modelled from the spec: a Symbolic Variable, carrying the host-assigned
identity used by the constraint system and a type tag. -/
structure SymVar where
  ident : Nat
  ty : SymTy
deriving DecidableEq

/-- Modelled from the spec: the host symbolic store behind the `symbol_*`
imports, whose bodies are not in this repository: a fresh-identity source
and the list of variables minted so far. -/
structure SymState where
  nextId : Nat
  minted : List SymVar
deriving DecidableEq

/-- The initial symbolic store: nothing minted yet. -/
def symInit : SymState := ⟨0, []⟩

/-- Modelled from the spec: minting a symbolic variable registers a new
identity with the host store and returns the fresh variable; the result
depends only on the store, never on any previously returned value. -/
def mintSymbol (s : SymState) (t : SymTy) : SymVar × SymState :=
  (⟨s.nextId, t⟩, ⟨s.nextId + 1, SymVar.mk s.nextId t :: s.minted⟩)

/-- The import behind `owi_i8`: mint an i8 symbolic variable. -/
def owi_i8 (s : SymState) : SymVar × SymState := mintSymbol s SymTy.i8

/-- The import behind `owi_i32`: mint an i32 symbolic variable. -/
def owi_i32 (s : SymState) : SymVar × SymState := mintSymbol s SymTy.i32

/-- The import behind `owi_i64`: mint an i64 symbolic variable. -/
def owi_i64 (s : SymState) : SymVar × SymState := mintSymbol s SymTy.i64

/-- The import behind `owi_f32`: mint an f32 symbolic variable. -/
def owi_f32 (s : SymState) : SymVar × SymState := mintSymbol s SymTy.f32

/-- The import behind `owi_f64`: mint an f64 symbolic variable. -/
def owi_f64 (s : SymState) : SymVar × SymState := mintSymbol s SymTy.f64

/-- Dispatch one `symbol_*` call by requested type. -/
def callSym (s : SymState) : SymTy → SymVar × SymState
  | SymTy.i8 => owi_i8 s
  | SymTy.i32 => owi_i32 s
  | SymTy.i64 => owi_i64 s
  | SymTy.f32 => owi_f32 s
  | SymTy.f64 => owi_f64 s

/-- Store after a sequence of `symbol_*` calls. -/
def mintMany (s : SymState) : List SymTy → SymState
  | [] => s
  | t :: ts => mintMany (callSym s t).2 ts

lemma callSym_eq (s : SymState) (t : SymTy) : callSym s t = mintSymbol s t := by
  cases t <;> rfl

/-- Symbolic-store invariant: every minted identity is below the fresh
source, and no two minted variables share an identity. -/
def SymInv (s : SymState) : Prop :=
  (∀ v ∈ s.minted, v.ident < s.nextId) ∧ (s.minted.map (fun v => v.ident)).Nodup

lemma symInv_init : SymInv symInit := by
  constructor
  · intro v hv
    simp [symInit] at hv
  · simp [symInit]

lemma symInv_mint (s : SymState) (t : SymTy) (hs : SymInv s) :
    SymInv (callSym s t).2 := by
  rw [callSym_eq]
  obtain ⟨hbound, hnodup⟩ := hs
  constructor
  · intro v hv
    simp only [mintSymbol, List.mem_cons] at hv
    rcases hv with hv | hv
    · simp [mintSymbol, hv]
    · exact Nat.lt_succ_of_lt (hbound v hv)
  · simp only [mintSymbol, List.map_cons, List.nodup_cons]
    refine ⟨?_, hnodup⟩
    intro hmem
    rcases List.mem_map.mp hmem with ⟨v, hv, hideq⟩
    exact absurd (hideq ▸ hbound v hv) (lt_irrefl _)

lemma symInv_many (s : SymState) (ts : List SymTy) (hs : SymInv s) :
    SymInv (mintMany s ts) := by
  induction ts generalizing s with
  | nil => exact hs
  | cons t ts ih => exact ih (callSym s t).2 (symInv_mint s t hs)

/-- Claim C4: after every sequence of `symbol_*` calls from the initial
store, a further call of any of the five sources returns a variable whose
host-assigned identity is distinct from every previously minted identity
(including earlier variables of the same type), and all minted identities
are pairwise distinct. -/
theorem symbol_mint_fresh (ts : List SymTy) (t : SymTy) :
    (callSym (mintMany symInit ts) t).1.ident ∉
      (mintMany symInit ts).minted.map (fun v => v.ident) ∧
    ((mintMany symInit ts).minted.map (fun v => v.ident)).Nodup := by
  have hInv := symInv_many symInit ts symInv_init
  refine ⟨?_, hInv.2⟩
  rw [callSym_eq]
  intro hmem
  rcases List.mem_map.mp hmem with ⟨v, hv, hideq⟩
  exact absurd (hideq ▸ hInv.1 v hv) (lt_irrefl _)

/- ===== Constraint Gate (host side, modelled from the spec) ===== -/

/-- An assignment of concrete values to the symbolic variables, keyed by
host-assigned identity. -/
def Assignment : Type := Nat → Int

/-- A boolean condition over the symbolic variables, as evaluated on a
concrete assignment. -/
def Cond : Type := Assignment → Bool

/-- The Path Condition: the conditions assumed so far on the current path. -/
def PathCond : Type := List Cond

/-- Modelled from the spec: the host body of `assume` (the import behind
`owi_assume`), not in this repository, conjoins the condition onto the
Path Condition of the current path. -/
def owi_assume (c : Cond) (pc : PathCond) : PathCond := c :: pc

/-- Path Condition accumulated by a sequence of `owi_assume` calls from an
empty Path Condition. -/
def pcOf (assumed : List Cond) : PathCond :=
  assumed.foldl (fun pc c => owi_assume c pc) []

/-- Whether a concrete assignment satisfies every condition of the Path
Condition. -/
def pathSat (pc : PathCond) (σ : Assignment) : Bool :=
  pc.all (fun c => c σ)

/-- The Path Condition entails a condition: the condition holds on every
assignment satisfying the Path Condition. -/
def entailsPC (pc : PathCond) (c : Cond) : Prop :=
  ∀ σ : Assignment, pathSat pc σ = true → c σ = true

/-- Outcome of one `assert` call: no-op, or a violation carrying a
counterexample assignment. -/
inductive AssertOutcome where
  | ok
  | violation (σ : Assignment)

/-- Modelled from the spec: the host body of `assert` (the import behind
`owi_assert`), not in this repository, checks whether the condition can be
false under the current Path Condition; if so it reports a violation
outcome carrying a concrete counterexample assignment, otherwise it is a
no-op. -/
inductive owi_assert (pc : PathCond) (c : Cond) : AssertOutcome → Prop where
  | violation (σ : Assignment) (hsat : pathSat pc σ = true) (hfalse : c σ = false) :
      owi_assert pc c (AssertOutcome.violation σ)
  | ok (hent : ∀ σ : Assignment, pathSat pc σ = true → c σ = true) :
      owi_assert pc c AssertOutcome.ok

/-- Claim C3: under the Path Condition accumulated by prior `owi_assume`
calls, `owi_assert` reports a violation exactly on the assignments that
satisfy the Path Condition while falsifying the condition; a violation is
reportable at all if and only if the condition is not entailed by the Path
Condition; and when the condition is entailed, `owi_assert` never reports
a violation. -/
theorem owi_assert_violation_iff (assumed : List Cond) (c : Cond) :
    (∀ σ : Assignment, owi_assert (pcOf assumed) c (AssertOutcome.violation σ) ↔
        (pathSat (pcOf assumed) σ = true ∧ c σ = false)) ∧
    ((∃ σ : Assignment, pathSat (pcOf assumed) σ = true ∧ c σ = false) ↔
        ¬ entailsPC (pcOf assumed) c) ∧
    (entailsPC (pcOf assumed) c →
        ∀ σ : Assignment, ¬ owi_assert (pcOf assumed) c (AssertOutcome.violation σ)) := by
  refine ⟨?_, ?_, ?_⟩
  · intro σ
    constructor
    · intro hstep
      cases hstep with
      | violation σ hsat hfalse => exact ⟨hsat, hfalse⟩
    · rintro ⟨hsat, hfalse⟩
      exact owi_assert.violation σ hsat hfalse
  · constructor
    · rintro ⟨σ, hsat, hfalse⟩ hent
      have := hent σ hsat
      rw [hfalse] at this
      exact Bool.noConfusion this
    · intro hne
      by_contra hnex
      apply hne
      intro σ hsat
      by_cases hc : c σ = true
      · exact hc
      · exact absurd ⟨σ, hsat, Bool.eq_false_iff.mpr hc⟩ hnex
  · intro hent σ hstep
    cases hstep with
    | violation σ hsat hfalse =>
        have := hent σ hsat
        rw [hfalse] at this
        exact Bool.noConfusion this

/-- A sample condition: the symbolic variable with identity 0 is positive. -/
def condPos : Cond := fun σ => decide (0 < σ 0)

/-- Concrete instance of `owi_assert_violation_iff`: after assuming that
variable 0 is positive, asserting the same condition is entailed and never
reports a violation. -/
theorem owi_assert_entailed_spot :
    entailsPC (pcOf [condPos]) condPos ∧
    ∀ σ : Assignment, ¬ owi_assert (pcOf [condPos]) condPos (AssertOutcome.violation σ) := by
  have hent : entailsPC (pcOf [condPos]) condPos := by
    intro σ hσ
    simp only [pcOf, List.foldl, owi_assume, pathSat, List.all_cons, List.all_nil,
      Bool.and_true] at hσ
    exact hσ
  exact ⟨hent, (owi_assert_violation_iff [condPos] condPos).2.2 hent⟩

/- ===== Declaration-level properties of owi.c ===== -/

/-- Counterexample to claim C6 as stated: `owi_malloc` does not take
exactly one argument; its declaration on lines 3-4 of owi.c lists two
parameters, `void *` and `unsigned int`. -/
theorem owi_malloc_arity_cex : owi_malloc_decl.params.length ≠ 1 := by decide

/-- Claim C6 amended: the allocate primitive `owi_malloc` takes two
arguments — a pointer and an unsigned 32-bit size — and returns a pointer
handle. -/
theorem owi_malloc_signature :
    owi_malloc_decl.params = [CType.ptr, CType.uintTy] ∧
    owi_malloc_decl.ret = CType.ptr :=
  ⟨rfl, rfl⟩

/-- Modelled from the spec: the fallback body of the weak `assume` entry
point when no symbolic runtime is linked, which is not in this repository:
it accepts the condition and discards it, leaving the Path Condition
unchanged. -/
def assumeNoRuntime (_c : Cond) (pc : PathCond) : PathCond := pc

/-- Claim C7: owi.c declares an entry point with the C name `assume`, the
same name as the assume primitive, marked weak (overridable), unlike the
runtime primitive `owi_assume`; and when no symbolic runtime is linked
its fallback is a no-op that accepts and discards the condition. -/
theorem weak_assume_entry (c : Cond) (pc : PathCond) :
    assume_decl.cname = "assume" ∧ assume_decl.impName = "assume" ∧
    assume_decl.weak = true ∧ owi_assume_decl.weak = false ∧
    assumeNoRuntime c pc = pc :=
  ⟨rfl, rfl, rfl, rfl, rfl⟩

/-- Counterexample to claim C8 as stated: the allocation primitives are
not imported under a module named "memory summaries"; the module string on
line 3 of owi.c is "summaries". -/
theorem memory_summaries_name_cex : owi_malloc_decl.modName ≠ "memory summaries" := by
  decide

/-- Claim C8 amended: the allocation primitives are imported under the
module "summaries" while the symbolic-value, assume, and assert
primitives are imported under the distinct module "symbolic", so the two
groups can be backed independently without renaming call sites. -/
theorem import_grouping :
    owi_malloc_decl.modName = "summaries" ∧ owi_free_decl.modName = "summaries" ∧
    owi_i8_decl.modName = "symbolic" ∧ owi_i32_decl.modName = "symbolic" ∧
    owi_i64_decl.modName = "symbolic" ∧ owi_f32_decl.modName = "symbolic" ∧
    owi_f64_decl.modName = "symbolic" ∧ owi_assume_decl.modName = "symbolic" ∧
    owi_assert_decl.modName = "symbolic" ∧ ("summaries" : String) ≠ "symbolic" :=
  ⟨rfl, rfl, rfl, rfl, rfl, rfl, rfl, rfl, rfl, by decide⟩

/-- A call through a declaration resolves against the host backend by the
declaration's import module and import name only. -/
def hostCall (host : String → String → Int → PathCond → PathCond)
    (d : CDecl) (x : Int) (pc : PathCond) : PathCond :=
  host d.modName d.impName x pc

/-- Claim C9: the weak entry point `assume` and the runtime primitive
`owi_assume` declare the same import — module "symbolic", name "assume" —
so whenever a symbolic runtime backs that import, a call through either
declaration invokes the same host function on the same condition and is
observationally identical. -/
theorem assume_alias_same_import
    (host : String → String → Int → PathCond → PathCond) (x : Int) (pc : PathCond) :
    assume_decl.modName = owi_assume_decl.modName ∧
    assume_decl.impName = owi_assume_decl.impName ∧
    hostCall host assume_decl x pc = hostCall host owi_assume_decl x pc :=
  ⟨rfl, rfl, rfl⟩

/-- Claim C10: the wire-level import names of the ten declarations of
owi.c, in source order: `owi_malloc` is imported as ("summaries", "alloc"),
`owi_free` as ("summaries", "dealloc"), the five symbol sources as
("symbolic", "i8_symbol"/"i32_symbol"/"i64_symbol"/"f32_symbol"/
"f64_symbol"), and `owi_assume`, `owi_assert` and the weak `assume` keep
their names under module "symbolic"; a host backend must export exactly
these module/name pairs for the shim to resolve. -/
theorem wire_import_names :
    owiDecls.map (fun d => (d.modName, d.impName)) =
      [("summaries", "alloc"), ("summaries", "dealloc"),
       ("symbolic", "i8_symbol"), ("symbolic", "i32_symbol"),
       ("symbolic", "i64_symbol"), ("symbolic", "f32_symbol"),
       ("symbolic", "f64_symbol"),
       ("symbolic", "assume"), ("symbolic", "assert"), ("symbolic", "assume")] ∧
    owiDecls.map (fun d => d.cname) =
      ["owi_malloc", "owi_free", "owi_i8", "owi_i32", "owi_i64",
       "owi_f32", "owi_f64", "owi_assume", "owi_assert", "assume"] :=
  ⟨rfl, rfl⟩
